import Mathlib

/-!
# The chapter-05 email store of cascadia-2019-training

A shallow embedding of `src/utils/email.js` (the seed list and `generateEmail`)
and of `src/chapters/05-final/context/email-context.js` (`init`, `removeEmail`,
`undoRemoveEmail`, `emailsReducer` and the polling effect of `EmailProvider`),
and of `Inbox` in `src/chapters/05-final/components/inbox.js`.

JavaScript arrays are lists, `console.warn` is the list of messages a call
emits, `Array.prototype.findIndex` and `Array.prototype.splice` follow
ECMAScript (a result of `-1` for "not found", a negative or too large start
index clamped into the array), and `null` is `none`.
-/

namespace EmailStore

/-! ## Data model -/

/-- One email record, the object literal shape of `src/utils/email.js`. -/
structure EmailRecord where
  id : String
  name : String
  title : String
  body : String
  email : String
  deriving DecidableEq, Repr

/-- The value stored in `removedEmailInfo` by `removeEmail`:
`{ email: removedEmail, index: removedEmailIndex }`. The index is a JavaScript
number, kept as an integer so that `splice` sees what the source passes. -/
structure RemovedEmailInfo where
  email : EmailRecord
  index : Int
  deriving DecidableEq, Repr

/-- The reducer state `{ emails, removedEmailInfo }`; `null` is `none`. -/
structure State where
  emails : List EmailRecord
  removedEmailInfo : Option RemovedEmailInfo
  deriving DecidableEq, Repr

/-- The actions `emailsReducer` switches on; `other` is any action type that
falls to the `default` case. -/
inductive Action where
  | add (payload : EmailRecord)
  | remove (payload : String)
  | undoRemoveEmail
  | other (type : String)
  deriving DecidableEq, Repr

/-! ## Array primitives -/

/-- `Array.prototype.findIndex`: the index of the first element satisfying the
predicate, `-1` when there is none. -/
def findIndex {α : Type} (p : α → Bool) : List α → Int
  | [] => -1
  | x :: xs =>
    if p x then 0
    else
      let r := findIndex p xs
      if r < 0 then -1 else r + 1

/-- The `actualStart` of `Array.prototype.splice(start, ...)` on an array of
length `len`: a negative start counts from the end, and the result is clamped
into `0 .. len`. -/
def spliceStart (len : Nat) (start : Int) : Nat :=
  if start < 0 then (max ((len : Int) + start) 0).toNat
  else min start.toNat len

/-- `xs.splice(start, 0, item)` seen as the resulting array: `item` is inserted
at `actualStart`, nothing is deleted. -/
def spliceInsert {α : Type} (xs : List α) (start : Int) (item : α) : List α :=
  xs.take (spliceStart xs.length start) ++ item :: xs.drop (spliceStart xs.length start)

/-- A non-negative `findIndex` result is a valid index: this is what makes
`emails[removedEmailIndex]` in `removeEmail` a defined element. -/
theorem findIndex_toNat_lt {α : Type} (p : α → Bool) (xs : List α)
    (h : ¬ findIndex p xs < 0) : (findIndex p xs).toNat < xs.length := by
  induction xs with
  | nil => exact absurd (by simp [findIndex]) h
  | cons x xs ih =>
    unfold findIndex at h ⊢
    by_cases hp : p x = true
    · simp [hp]
    · simp only [hp] at h ⊢
      by_cases hr : findIndex p xs < 0
      · simp [hr] at h
      · have := ih hr
        simp only [hr, if_false, Bool.false_eq_true, List.length_cons] at h ⊢
        omega

/-! ## `src/utils/email.js` -/

/-- The exported seed list `emails`. -/
def emails : List EmailRecord :=
  [{ id := "1",
     name := "Taylor Swift",
     title := "You Belong With Me...",
     body := "You are so cool! Can we be besties?",
     email := "tswift@gmail.com" }]

/-- The argument of `generateEmail`: each destructured field is either absent
(`undefined`, here `none`) or a supplied string. -/
structure Overrides where
  id : Option String := none
  name : Option String := none
  title : Option String := none
  body : Option String := none
  email : Option String := none
  deriving DecidableEq, Repr

/-- The values the `faker` calls of one `generateEmail` invocation return. -/
structure Faker where
  uuid : String
  firstName : String
  lastName : String
  sentence : String
  paragraph : String
  internetEmail : String
  deriving DecidableEq, Repr

/-- JavaScript `a || b` on an optional string: `undefined` and the empty
string are falsy, every other string is truthy. -/
def orElse (a : Option String) (b : String) : String :=
  match a with
  | none => b
  | some v => if v = "" then b else v

/-- `generateEmail({ id, name, title, body, email } = {})`. -/
def generateEmail (o : Overrides) (faker : Faker) : EmailRecord :=
  { id := orElse o.id faker.uuid,
    name := orElse o.name (faker.firstName ++ " " ++ faker.lastName),
    title := orElse o.title faker.sentence,
    body := orElse o.body faker.paragraph,
    email := orElse o.email faker.internetEmail }

/-! ## `src/chapters/05-final/context/email-context.js` -/

/-- `init = emails => ({ emails, removedEmailInfo: null })`. -/
def init (emails : List EmailRecord) : State :=
  { emails := emails, removedEmailInfo := none }

/-- `removeEmail(state, removeId)`: the returned state and the warnings emitted. -/
def removeEmail (state : State) (removeId : String) : State × List String :=
  let emails := state.emails
  let removedEmailIndex := findIndex (fun email => email.id == removeId) state.emails
  if h : removedEmailIndex < 0 then
    (state, ["Cannot find email to remove."])
  else
    let removedEmail := emails.get ⟨removedEmailIndex.toNat, findIndex_toNat_lt _ _ h⟩
    let filteredEmails := emails.filter (fun email => email.id != removeId)
    ({ emails := filteredEmails,
       removedEmailInfo := some { email := removedEmail, index := removedEmailIndex } }, [])

/-- `undoRemoveEmail(state)`: the returned state and the warnings emitted. -/
def undoRemoveEmail (state : State) : State × List String :=
  match state.removedEmailInfo with
  | none => (state, ["Cannot undo non-existent email removal"])
  | some removedEmailInfo =>
    let updatedEmails := spliceInsert state.emails removedEmailInfo.index removedEmailInfo.email
    ({ emails := updatedEmails, removedEmailInfo := none }, [])

/-- `emailsReducer(state, action)`: the returned state and the warnings emitted. -/
def emailsReducer (state : State) (action : Action) : State × List String :=
  match action with
  | .add payload => ({ state with emails := state.emails ++ [payload] }, [])
  | .remove payload => removeEmail state payload
  | .undoRemoveEmail => undoRemoveEmail state
  | .other _ => (state, [])

/-- The state after dispatching a sequence of actions, one after the other. -/
def dispatchAll (state : State) (actions : List Action) : State :=
  actions.foldl (fun s a => (emailsReducer s a).1) state

/-- A mounted `EmailProvider`: the reducer state of its latest render, and the
`emails` constant that the installed `polling` interval callback closes over.
The callback is created by the effect of one render and reads that render's
`const { emails, removedEmailInfo } = state`, not the reducer's live state. -/
structure Provider where
  state : State
  pollingEmails : List EmailRecord
  deriving DecidableEq, Repr

/-- What can happen to a mounted `EmailProvider`: the polling interval fires
(`generateEmail()` then draws the given `faker` values), a consumer calls
`removeEmail(id)` or `undoRemoveEmail()`, or the effect of the latest render
runs (`cleanup()` of the old interval, then `setInterval` again). -/
inductive Event where
  | tick (faker : Faker)
  | remove (id : String)
  | undo
  | effect
  deriving DecidableEq, Repr

/-- The `React.useEffect(..., [emails])` of the latest render runs: the old
interval is cleared and the new callback closes over that render's `emails`. -/
def runEffect (p : Provider) : Provider :=
  { p with pollingEmails := p.state.emails }

/-- The call `dispatch(action)`. React runs the effect of the current render, if
it is still pending, before it renders the update, so while the new state is on
screen and until its own effect runs the installed callback holds the `emails`
of the render that is replaced. -/
def dispatch (p : Provider) (action : Action) : Provider :=
  { state := (emailsReducer p.state action).1, pollingEmails := p.state.emails }

/-- One event applied to the provider. A tick runs the installed interval callback,
`if (emails.length < 5) dispatch({ type: "add", payload: generateEmail() })`,
where `emails` is the list the callback closed over. -/
def step (p : Provider) (event : Event) : Provider :=
  match event with
  | .tick faker =>
    if p.pollingEmails.length < 5 then
      dispatch p (.add (generateEmail {} faker))
    else p
  | .remove id => dispatch p (.remove id)
  | .undo => dispatch p .undoRemoveEmail
  | .effect => runEffect p

/-- The provider once mounted: `React.useReducer(emailsReducer, initialEmails, init)`
and the interval installed by the effect of the first render. -/
def mount : Provider :=
  { state := init emails, pollingEmails := emails }

/-- The provider after a sequence of events, starting from the mounted one. -/
def run (events : List Event) : Provider :=
  events.foldl step mount

/-- Every tick of the sequence fires when the effect of the latest render has
run, that is when the installed callback closes over the current `emails`. -/
def freshTicks : Provider → List Event → Bool
  | _, [] => true
  | p, e :: rest =>
    (match e with
      | .tick _ => decide (p.pollingEmails = p.state.emails)
      | _ => true)
    && freshTicks (step p e) rest

/-- The ids of a list of records, in order. -/
def ids (es : List EmailRecord) : List String := es.map (fun e => e.id)

/-! ## `src/chapters/05-final/components/inbox.js` -/

/-- One element of the `inboxElements` array built by `Inbox`: an `EmailError`
boundary around the `Preview` of a record, with its `key`, or the `Undo`
control, with its `key`. -/
inductive Element where
  | emailError (key : String) (email : EmailRecord)
  | undo (key : String)
  deriving DecidableEq, Repr

/-- What `Inbox` returns: `<Denied />`, `<Empty />`, or the `<ul className="inbox">`
holding `inboxElements`. -/
inductive Rendered where
  | denied
  | empty
  | inbox (inboxElements : List Element)
  deriving DecidableEq, Repr

/-- `Inbox()`, with the values it reads from `useAuth()` and `useEmail()` as
arguments. -/
def Inbox (isAuthenticated : Bool) (state : State) : Rendered :=
  if !isAuthenticated then .denied
  else if state.emails.length = 0 then .empty
  else
    let inboxElements := state.emails.map (fun email => Element.emailError email.id email)
    match state.removedEmailInfo with
    | some removedEmailInfo =>
      .inbox (spliceInsert inboxElements removedEmailInfo.index
        (.undo ("undo-" ++ removedEmailInfo.email.id)))
    | none => .inbox inboxElements

/-- Whether an element is the `Undo` control. -/
def Element.isUndo : Element → Bool
  | .undo _ => true
  | .emailError _ _ => false

/-! ## Predicates and sample inputs used by the statements -/

/-- A record that is not the seed record but carries the seed's id `"1"`. -/
def sameIdAsSeed : EmailRecord :=
  { id := "1", name := "n", title := "t", body := "b", email := "e" }

/-- A state whose two records share the id `"1"`. -/
def twoSameId : State :=
  { emails := emails ++ [sameIdAsSeed], removedEmailInfo := none }

/-- The seed list with a removal pending at index 1, the end of the list. -/
def pendingAtEnd : State :=
  { emails := emails, removedEmailInfo := some { email := sameIdAsSeed, index := 1 } }

/-- The seed list with a removal pending at index 5, past the end of the list. -/
def pendingPastEnd : State :=
  { emails := emails, removedEmailInfo := some { email := sameIdAsSeed, index := 5 } }

/-- The `faker` draws of a sample tick: every generated field is the tag. -/
def fakerOf (tag : String) : Faker :=
  { uuid := tag, firstName := tag, lastName := tag, sentence := tag, paragraph := tag,
    internetEmail := tag }

/-- Four ticks fill the list, a removal makes room, a fifth tick fills it again
and the undo puts the removed record back; the effect runs after every update,
so each tick tests the current `emails`. -/
def overfill : List Event :=
  [.tick (fakerOf "2"), .effect, .tick (fakerOf "3"), .effect, .tick (fakerOf "4"), .effect,
   .tick (fakerOf "5"), .effect, .remove "1", .effect, .tick (fakerOf "6"), .effect, .undo]

/-- Four ticks fill the list, a removal makes room and the undo fills it again;
the next tick fires before the effect of the undo has run, so it tests the
four records of the render before the undo. -/
def overfillStale : List Event :=
  [.tick (fakerOf "2"), .effect, .tick (fakerOf "3"), .effect, .tick (fakerOf "4"), .effect,
   .tick (fakerOf "5"), .effect, .remove "1", .effect, .undo, .tick (fakerOf "6")]

/-- One tick, then the seed record is removed; the effect runs after each. -/
def tickThenRemove : List Event :=
  [.tick (fakerOf "2"), .effect, .remove "1", .effect]

/-- The pending removed record, if any, does not carry the id `id`. -/
def pendingIdIsNot (s : State) (id : String) : Bool :=
  match s.removedEmailInfo with
  | none => true
  | some info => info.email.id != id

/-- The pending removed record, if any, has an id that no record of `emails` has. -/
def pendingNotListed (s : State) : Bool :=
  match s.removedEmailInfo with
  | none => true
  | some info => !(ids s.emails).contains info.email.id

/-- Every `add` of the sequence carries, at the moment it is dispatched, an id
that no record of `emails` has and that the pending removed record does not have. -/
def freshAdds : State → List Action → Bool
  | _, [] => true
  | s, a :: rest =>
    (match a with
      | .add r => !(ids s.emails).contains r.id && pendingIdIsNot s r.id
      | _ => true)
    && freshAdds (emailsReducer s a).1 rest

/-- The invariant behind id uniqueness: the ids of `emails` are pairwise
distinct and the pending removed record is not one of them. -/
def DistinctIds (s : State) : Prop :=
  (ids s.emails).Nodup ∧ pendingNotListed s = true

/-- The invariant behind the capacity bound: at most six records, and at most
five while a removal is pending. -/
def WithinCapacity (s : State) : Prop :=
  s.emails.length ≤ 6 ∧ (s.removedEmailInfo ≠ none → s.emails.length ≤ 5)

/-- The invariant behind the capacity bound when ticks may test the `emails`
of the render before the latest update: at most seven records, at most six
while a removal is pending, and at most one more than the callback's list. -/
def StaleWithinCapacity (p : Provider) : Prop :=
  p.state.emails.length ≤ 7 ∧
  (p.state.removedEmailInfo ≠ none → p.state.emails.length ≤ 6) ∧
  p.state.emails.length ≤ p.pollingEmails.length + 1

/-- The invariant behind the undo index: a pending index lies in `0 .. emails.length`. -/
def IndexInRange (s : State) : Prop :=
  ∀ info, s.removedEmailInfo = some info →
    0 ≤ info.index ∧ info.index ≤ (s.emails.length : Int)

/-! ## Lemmas on the array primitives -/

theorem findIndex_neg_iff {α : Type} (p : α → Bool) (xs : List α) :
    findIndex p xs < 0 ↔ ∀ x ∈ xs, p x = false := by
  induction xs with
  | nil => simp [findIndex]
  | cons x xs ih =>
    unfold findIndex
    by_cases hp : p x = true
    · simp [hp]
    · have hx : p x = false := by simpa using hp
      by_cases hr : findIndex p xs < 0
      · simp only [hx, hr, if_true, Bool.false_eq_true, if_false, List.mem_cons,
          forall_eq_or_imp, true_and]
        exact ⟨fun _ => ih.mp hr, fun _ => by omega⟩
      · have hne : ¬ ∀ y ∈ xs, p y = false := fun hall => hr (ih.mpr hall)
        simp only [hx, hr, if_false, Bool.false_eq_true, List.mem_cons, forall_eq_or_imp,
          true_and]
        constructor
        · intro h; omega
        · intro h; exact absurd h hne

theorem findIndex_split {α : Type} (p : α → Bool) (xs : List α)
    (h : ¬ findIndex p xs < 0) :
    ∃ pre x post, xs = pre ++ x :: post ∧ (∀ y ∈ pre, p y = false) ∧ p x = true ∧
      findIndex p xs = (pre.length : Int) := by
  induction xs with
  | nil => exact absurd (by simp [findIndex]) h
  | cons x xs ih =>
    by_cases hp : p x = true
    · exact ⟨[], x, xs, rfl, by simp, hp, by simp [findIndex, hp]⟩
    · have hx : p x = false := by simpa using hp
      have hr : ¬ findIndex p xs < 0 := by
        intro hr
        apply h
        unfold findIndex
        simp [hx, hr]
      obtain ⟨pre, y, post, hxs, hpre, hy, hidx⟩ := ih hr
      refine ⟨x :: pre, y, post, by simp [hxs], ?_, hy, ?_⟩
      · intro z hz
        rcases List.mem_cons.mp hz with rfl | hz
        · exact hx
        · exact hpre z hz
      · unfold findIndex
        simp only [hx, hr, if_false, Bool.false_eq_true, List.length_cons]
        rw [hidx]
        push_cast
        rfl

theorem get_of_split {α : Type} (xs pre post : List α) (x : α) (i : Nat)
    (hi : i < xs.length) (hxs : xs = pre ++ x :: post) (hlen : i = pre.length) :
    xs.get ⟨i, hi⟩ = x := by
  subst hlen
  rw [List.get_eq_getElem]
  exact List.getElem_of_append hxs rfl

theorem spliceStart_of_le (len : Nat) (i : Nat) (h : i ≤ len) :
    spliceStart len (i : Int) = i := by
  unfold spliceStart
  have h0 : ¬ ((i : Int) < 0) := by omega
  simp [h0, h]

theorem spliceInsert_split {α : Type} (pre post : List α) (x : α) :
    spliceInsert (pre ++ post) (pre.length : Int) x = pre ++ x :: post := by
  unfold spliceInsert
  rw [spliceStart_of_le _ _ (by simp)]
  simp

theorem spliceInsert_perm {α : Type} (xs : List α) (start : Int) (x : α) :
    List.Perm (spliceInsert xs start x) (x :: xs) := by
  unfold spliceInsert
  have h := List.take_append_drop (spliceStart xs.length start) xs
  calc xs.take (spliceStart xs.length start) ++ x :: xs.drop (spliceStart xs.length start)
      |>.Perm (x :: (xs.take (spliceStart xs.length start)
          ++ xs.drop (spliceStart xs.length start))) := List.perm_middle
    _ = x :: xs := by rw [h]

theorem length_spliceInsert {α : Type} (xs : List α) (start : Int) (x : α) :
    (spliceInsert xs start x).length = xs.length + 1 := by
  simpa using (spliceInsert_perm xs start x).length_eq

/-! ## Lemmas on `removeEmail` and `undoRemoveEmail` -/

theorem mem_ids_iff (es : List EmailRecord) (id : String) :
    id ∈ ids es ↔ ∃ e ∈ es, e.id = id := by
  simp [ids]

theorem removeEmail_not_found (s : State) (id : String) (h : id ∉ ids s.emails) :
    removeEmail s id = (s, ["Cannot find email to remove."]) := by
  have hneg : findIndex (fun email : EmailRecord => email.id == id) s.emails < 0 := by
    rw [findIndex_neg_iff]
    intro x hx
    have : x.id ≠ id := fun hid => h ((mem_ids_iff _ _).mpr ⟨x, hx, hid⟩)
    simpa using this
  unfold removeEmail
  simp only [hneg, dif_pos]

theorem removeEmail_found (s : State) (id : String) (h : id ∈ ids s.emails) :
    ∃ pre x post, s.emails = pre ++ x :: post ∧ (∀ y ∈ pre, y.id ≠ id) ∧ x.id = id ∧
      removeEmail s id =
        ({ emails := pre ++ post.filter (fun email => email.id != id),
           removedEmailInfo := some { email := x, index := (pre.length : Int) } }, []) := by
  have hneg : ¬ findIndex (fun email : EmailRecord => email.id == id) s.emails < 0 := by
    rw [findIndex_neg_iff]
    obtain ⟨e, he, hid⟩ := (mem_ids_iff _ _).mp h
    intro hall
    have := hall e he
    simp [hid] at this
  obtain ⟨pre, x, post, hxs, hpre, hx, hidx⟩ := findIndex_split _ _ hneg
  have hx' : x.id = id := by simpa using hx
  have hpre' : ∀ y ∈ pre, y.id ≠ id := fun y hy => by simpa using hpre y hy
  refine ⟨pre, x, post, hxs, hpre', hx', ?_⟩
  unfold removeEmail
  simp only [hneg, dif_neg, not_false_eq_true]
  have hget := get_of_split s.emails pre post x _ (findIndex_toNat_lt _ _ hneg) hxs
    (by rw [hidx]; simp)
  rw [hget, hidx, hxs]
  have hfpre : pre.filter (fun email => email.id != id) = pre := by
    rw [List.filter_eq_self]
    intro y hy
    simpa using hpre' y hy
  simp [List.filter_append, hfpre, List.filter_cons, hx']

theorem removeEmail_unique (s : State) (id : String) (h : (ids s.emails).count id = 1) :
    ∃ pre x post, s.emails = pre ++ x :: post ∧ (∀ y ∈ pre, y.id ≠ id) ∧ x.id = id ∧
      (∀ y ∈ post, y.id ≠ id) ∧
      removeEmail s id =
        ({ emails := pre ++ post,
           removedEmailInfo := some { email := x, index := (pre.length : Int) } }, []) := by
  have hmem : id ∈ ids s.emails := List.count_pos_iff.mp (by omega)
  obtain ⟨pre, x, post, hxs, hpre, hx, hrem⟩ := removeEmail_found s id hmem
  have hpost : ∀ y ∈ post, y.id ≠ id := by
    intro y hy hid
    have hc : 0 < (ids post).count id :=
      List.count_pos_iff.mpr ((mem_ids_iff _ _).mpr ⟨y, hy, hid⟩)
    rw [hxs] at h
    simp only [ids, List.map_append, List.map_cons, List.count_append, List.count_cons, hx,
      beq_self_eq_true, if_true] at h hc
    omega
  refine ⟨pre, x, post, hxs, hpre, hx, hpost, ?_⟩
  rw [hrem]
  have hfpost : post.filter (fun email => email.id != id) = post := by
    rw [List.filter_eq_self]
    intro y hy
    simpa using hpost y hy
  rw [hfpost]

theorem getElem?_insert_at {α : Type} (xs : List α) (i : Nat) (r : α) (h : i ≤ xs.length) :
    (xs.take i ++ r :: xs.drop i)[i]? = some r := by
  rw [List.getElem?_append_right (by simp [h])]
  simp [h]

theorem getElem?_insert_before {α : Type} (xs : List α) (i j : Nat) (r : α)
    (h : i ≤ xs.length) (hj : j < i) :
    (xs.take i ++ r :: xs.drop i)[j]? = xs[j]? := by
  rw [List.getElem?_append_left (by simp [h, hj])]
  rw [List.getElem?_take_of_lt hj]

theorem getElem?_insert_after {α : Type} (xs : List α) (i j : Nat) (r : α)
    (h : i ≤ xs.length) (hj : i ≤ j) :
    (xs.take i ++ r :: xs.drop i)[j + 1]? = xs[j]? := by
  rw [List.getElem?_append_right (by simp [h]; omega)]
  have hlen : (xs.take i).length = i := by simp [h]
  rw [hlen]
  have : j + 1 - i = (j - i) + 1 := by omega
  rw [this, List.getElem?_cons_succ, List.getElem?_drop]
  congr 1
  omega

theorem eraseIdx_insert_at {α : Type} (xs : List α) (i : Nat) (r : α) (h : i ≤ xs.length) :
    (xs.take i ++ r :: xs.drop i).eraseIdx i = xs := by
  have hlen : (xs.take i).length = i := by simp [h]
  rw [List.eraseIdx_append_of_length_le (le_of_eq hlen), hlen, Nat.sub_self]
  simp [List.eraseIdx]

/-! ## Invariants of the reducer -/

theorem contains_false_iff (l : List String) (a : String) :
    l.contains a = false ↔ a ∉ l := by
  simp [List.contains]

theorem distinctIds_add (s : State) (r : EmailRecord) (h : DistinctIds s)
    (hr : (!(ids s.emails).contains r.id && pendingIdIsNot s r.id) = true) :
    DistinctIds (emailsReducer s (.add r)).1 := by
  obtain ⟨hnd, hp⟩ := h
  simp only [Bool.and_eq_true, Bool.not_eq_true', contains_false_iff] at hr
  obtain ⟨hnew, hpend⟩ := hr
  constructor
  · simp only [emailsReducer, ids, List.map_append, List.map_cons, List.map_nil]
    rw [List.nodup_append]
    refine ⟨hnd, by simp, ?_⟩
    intro a ha hb
    rw [List.mem_singleton] at hb
    subst hb
    exact hnew ha
  · cases hs : s.removedEmailInfo with
    | none => simp [emailsReducer, pendingNotListed, hs]
    | some info =>
      simp only [pendingNotListed, hs, pendingIdIsNot, emailsReducer, ids, List.map_append,
        List.map_cons, List.map_nil, Bool.not_eq_true', contains_false_iff,
        List.mem_append, List.mem_singleton, not_or, bne_iff_ne, ne_eq] at hp hpend ⊢
      exact ⟨hp, hpend⟩

theorem distinctIds_remove (s : State) (id : String) (h : DistinctIds s) :
    DistinctIds (emailsReducer s (.remove id)).1 := by
  by_cases hmem : id ∈ ids s.emails
  · obtain ⟨hnd, -⟩ := h
    obtain ⟨pre, x, post, hxs, hpre, hx, hpost, hrem⟩ :=
      removeEmail_unique s id (List.count_eq_one_of_mem hnd hmem)
    simp only [emailsReducer, hrem]
    constructor
    · rw [hxs] at hnd
      simp only [ids, List.map_append, List.map_cons] at hnd ⊢
      exact hnd.sublist (List.Sublist.append_left (List.sublist_cons_self _ _) _)
    · simp only [pendingNotListed, Bool.not_eq_true', contains_false_iff,
        mem_ids_iff, not_exists, not_and, List.mem_append]
      intro e he
      rcases he with he | he
      · rw [hx]; exact hpre e he
      · rw [hx]; exact hpost e he
  · simp only [emailsReducer, removeEmail_not_found s id hmem]
    exact h

theorem distinctIds_undo (s : State) (h : DistinctIds s) :
    DistinctIds (emailsReducer s .undoRemoveEmail).1 := by
  cases hs : s.removedEmailInfo with
  | none =>
    simp only [emailsReducer, undoRemoveEmail, hs]
    exact h
  | some info =>
    obtain ⟨hnd, hp⟩ := h
    simp only [emailsReducer, undoRemoveEmail, hs]
    refine ⟨?_, by simp [pendingNotListed]⟩
    have hperm : List.Perm (ids (spliceInsert s.emails info.index info.email))
        (info.email.id :: ids s.emails) := by
      simpa [ids] using (spliceInsert_perm s.emails info.index info.email).map (fun e => e.id)
    rw [hperm.nodup_iff, List.nodup_cons]
    refine ⟨?_, hnd⟩
    simpa [pendingNotListed, hs] using hp

theorem distinctIds_dispatchAll (acts : List Action) :
    ∀ s : State, DistinctIds s → freshAdds s acts = true → DistinctIds (dispatchAll s acts) := by
  induction acts with
  | nil => intro s h _; exact h
  | cons a rest ih =>
    intro s h hf
    simp only [freshAdds, Bool.and_eq_true] at hf
    obtain ⟨ha, hrest⟩ := hf
    have hstep : DistinctIds (emailsReducer s a).1 := by
      cases a with
      | add r => exact distinctIds_add s r h ha
      | remove id => exact distinctIds_remove s id h
      | undoRemoveEmail => exact distinctIds_undo s h
      | other t => exact h
    exact ih _ hstep hrest

theorem length_removeEmail_found (s : State) (id : String) (h : id ∈ ids s.emails) :
    (removeEmail s id).1.emails.length < s.emails.length ∧
    (removeEmail s id).1.removedEmailInfo ≠ none := by
  obtain ⟨pre, x, post, hxs, -, -, hrem⟩ := removeEmail_found s id h
  rw [hrem, hxs]
  have := List.length_filter_le (fun email : EmailRecord => email.id != id) post
  simp only [List.length_append, List.length_cons, ne_eq, reduceCtorEq, not_false_eq_true,
    and_true]
  omega

theorem withinCapacity_reducer (s : State) (a : Action)
    (ha : ∀ r, a = Action.add r → s.emails.length < 5) (h : WithinCapacity s) :
    WithinCapacity (emailsReducer s a).1 := by
  obtain ⟨h6, h5⟩ := h
  cases a with
  | add r =>
    have hlt := ha r rfl
    simp only [emailsReducer, WithinCapacity, List.length_append, List.length_cons,
      List.length_nil]
    exact ⟨by omega, fun _ => by omega⟩
  | remove id =>
    by_cases hmem : id ∈ ids s.emails
    · have := length_removeEmail_found s id hmem
      simp only [emailsReducer, WithinCapacity]
      exact ⟨by omega, fun _ => by omega⟩
    · simp only [emailsReducer, removeEmail_not_found s id hmem]
      exact ⟨h6, h5⟩
  | undoRemoveEmail =>
    cases hs : s.removedEmailInfo with
    | none =>
      simp only [emailsReducer, undoRemoveEmail, hs]
      exact ⟨h6, h5⟩
    | some info =>
      have := h5 (by simp [hs])
      simp only [emailsReducer, undoRemoveEmail, hs, WithinCapacity,
        length_spliceInsert, ne_eq, not_true_eq_false, false_implies, and_true]
      omega
  | other t => exact ⟨h6, h5⟩

theorem withinCapacity_step (p : Provider) (e : Event)
    (hfresh : ∀ f, e = Event.tick f → p.pollingEmails = p.state.emails)
    (h : WithinCapacity p.state) : WithinCapacity (step p e).state := by
  cases e with
  | tick faker =>
    have hp := hfresh faker rfl
    by_cases hlt : p.pollingEmails.length < 5
    · simp only [step, hlt, if_true, dispatch]
      exact withinCapacity_reducer _ _ (fun r _ => by rw [← hp]; exact hlt) h
    · simp only [step, hlt, if_false]
      exact h
  | remove id => exact withinCapacity_reducer _ _ (fun r hr => by cases hr) h
  | undo => exact withinCapacity_reducer _ _ (fun r hr => by cases hr) h
  | effect => exact h

theorem freshTicks_cons (p : Provider) (e : Event) (rest : List Event)
    (h : freshTicks p (e :: rest) = true) :
    (∀ f, e = Event.tick f → p.pollingEmails = p.state.emails) ∧
    freshTicks (step p e) rest = true := by
  simp only [freshTicks, Bool.and_eq_true] at h
  refine ⟨?_, h.2⟩
  intro f hf
  subst hf
  simpa using h.1

theorem withinCapacity_foldl (events : List Event) :
    ∀ p : Provider, WithinCapacity p.state → freshTicks p events = true →
      WithinCapacity (events.foldl step p).state := by
  induction events with
  | nil => intro p h _; exact h
  | cons e rest ih =>
    intro p h hf
    obtain ⟨hfresh, hrest⟩ := freshTicks_cons p e rest hf
    exact ih _ (withinCapacity_step p e hfresh h) hrest

theorem atMostFive_foldl (events : List Event) :
    ∀ p : Provider, p.state.emails.length ≤ 5 → freshTicks p events = true →
      (∀ e ∈ events, e ≠ Event.undo) → (events.foldl step p).state.emails.length ≤ 5 := by
  induction events with
  | nil => intro p h _ _; exact h
  | cons e rest ih =>
    intro p h hf hno
    obtain ⟨hfresh, hrest⟩ := freshTicks_cons p e rest hf
    refine ih _ ?_ hrest (fun e' he' => hno e' (List.mem_cons_of_mem _ he'))
    cases e with
    | tick faker =>
      have hp := hfresh faker rfl
      by_cases hlt : p.pollingEmails.length < 5
      · rw [hp] at hlt
        simp only [step, hp, hlt, if_true, dispatch, emailsReducer, List.length_append,
          List.length_cons, List.length_nil]
        omega
      · simp only [step, hlt, if_false]
        exact h
    | remove id =>
      by_cases hmem : id ∈ ids p.state.emails
      · have := length_removeEmail_found p.state id hmem
        simp only [step, dispatch, emailsReducer]
        omega
      · simp only [step, dispatch, emailsReducer, removeEmail_not_found p.state id hmem]
        exact h
    | undo => exact absurd rfl (hno Event.undo (List.mem_cons_self _ _))
    | effect => exact h

theorem staleWithinCapacity_step (p : Provider) (e : Event) (h : StaleWithinCapacity p) :
    StaleWithinCapacity (step p e) := by
  obtain ⟨h7, h6, hlag⟩ := h
  cases e with
  | tick faker =>
    by_cases hlt : p.pollingEmails.length < 5
    · simp only [step, hlt, if_true, dispatch, emailsReducer, StaleWithinCapacity,
        List.length_append, List.length_cons, List.length_nil]
      exact ⟨by omega, fun _ => by omega, by omega⟩
    · simp only [step, hlt, if_false]
      exact ⟨h7, h6, hlag⟩
  | remove id =>
    by_cases hmem : id ∈ ids p.state.emails
    · have := length_removeEmail_found p.state id hmem
      simp only [step, dispatch, emailsReducer, StaleWithinCapacity]
      exact ⟨by omega, fun _ => by omega, by omega⟩
    · simp only [step, dispatch, emailsReducer, removeEmail_not_found p.state id hmem,
        StaleWithinCapacity]
      exact ⟨h7, h6, by omega⟩
  | undo =>
    cases hs : p.state.removedEmailInfo with
    | none =>
      simp only [step, dispatch, emailsReducer, undoRemoveEmail, hs, StaleWithinCapacity]
      exact ⟨h7, fun hne => absurd rfl hne, by omega⟩
    | some info =>
      have := h6 (by simp [hs])
      simp only [step, dispatch, emailsReducer, undoRemoveEmail, hs, StaleWithinCapacity,
        length_spliceInsert, ne_eq, not_true_eq_false, false_implies, true_and]
      omega
  | effect =>
    simp only [step, runEffect, StaleWithinCapacity]
    exact ⟨h7, h6, by omega⟩

theorem staleWithinCapacity_foldl (events : List Event) :
    ∀ p : Provider, StaleWithinCapacity p → StaleWithinCapacity (events.foldl step p) := by
  induction events with
  | nil => intro p h; exact h
  | cons e rest ih => intro p h; exact ih _ (staleWithinCapacity_step p e h)

theorem indexInRange_reducer (s : State) (a : Action) (h : IndexInRange s) :
    IndexInRange (emailsReducer s a).1 := by
  cases a with
  | add r =>
    intro info hinfo
    have := h info (by simpa [emailsReducer] using hinfo)
    simp only [emailsReducer, List.length_append, List.length_cons, List.length_nil]
    push_cast
    omega
  | remove id =>
    by_cases hmem : id ∈ ids s.emails
    · obtain ⟨pre, x, post, -, -, -, hrem⟩ := removeEmail_found s id hmem
      intro info hinfo
      simp only [emailsReducer, hrem, Option.some.injEq] at hinfo ⊢
      subst hinfo
      simp only [List.length_append]
      push_cast
      omega
    · simp only [emailsReducer, removeEmail_not_found s id hmem]
      exact h
  | undoRemoveEmail =>
    cases hs : s.removedEmailInfo with
    | none =>
      simp only [emailsReducer, undoRemoveEmail, hs]
      exact h
    | some info0 =>
      intro info hinfo
      simp [emailsReducer, undoRemoveEmail, hs] at hinfo
  | other t => exact h

theorem indexInRange_dispatchAll (acts : List Action) :
    ∀ s : State, IndexInRange s → IndexInRange (dispatchAll s acts) := by
  induction acts with
  | nil => intro s h; exact h
  | cons a rest ih => intro s h; exact ih _ (indexInRange_reducer s a h)

/-! ## The claims -/

/-- C1: for a state whose email ids are pairwise distinct and an id present in
`state.emails`, dispatching `remove` with that id and then `undoRemoveEmail`
gives back the original `emails` sequence and a null `removedEmailInfo`. -/
theorem remove_then_undo_restores (s : State) (id : String)
    (hnd : (ids s.emails).Nodup) (hmem : id ∈ ids s.emails) :
    (emailsReducer (emailsReducer s (.remove id)).1 .undoRemoveEmail).1.emails = s.emails ∧
    (emailsReducer (emailsReducer s (.remove id)).1 .undoRemoveEmail).1.removedEmailInfo
      = none := by
  obtain ⟨pre, x, post, hxs, -, -, -, hrem⟩ :=
    removeEmail_unique s id (List.count_eq_one_of_mem hnd hmem)
  simp only [emailsReducer, hrem, undoRemoveEmail, spliceInsert_split, hxs, and_self]

theorem remove_then_undo_restores_witness :
    ((emailsReducer (emailsReducer (init emails) (.remove "1")).1 .undoRemoveEmail).1.emails
        = (init emails).emails ∧
      (emailsReducer (emailsReducer (init emails) (.remove "1")).1
        .undoRemoveEmail).1.removedEmailInfo = none) :=
  remove_then_undo_restores (init emails) "1" (by decide) (by decide)

/-- C2, as stated, fails: from the initial state, whose single id is distinct,
one `add` of a record that carries the id `"1"` again leaves two records with
the same id. -/
theorem add_can_duplicate_id :
    (ids (init emails).emails).Nodup ∧
    ids (dispatchAll (init emails) [.add sameIdAsSeed]).emails = ["1", "1"] ∧
    ¬ (ids (dispatchAll (init emails) [.add sameIdAsSeed]).emails).Nodup := by
  decide

/-- C2, amended: from a state whose email ids are pairwise distinct and whose
pending removed record, if any, has an id that no listed record has, every
finite sequence of actions in which each `add` carries an id that, when it is
dispatched, no listed record and not the pending removed record has, leaves the
ids of `state.emails` pairwise distinct. -/
theorem ids_stay_distinct (s : State) (acts : List Action)
    (hnd : (ids s.emails).Nodup) (hp : pendingNotListed s = true)
    (hf : freshAdds s acts = true) :
    (ids (dispatchAll s acts).emails).Nodup :=
  (distinctIds_dispatchAll acts s ⟨hnd, hp⟩ hf).1

theorem ids_stay_distinct_witness :
    (ids (init emails).emails).Nodup ∧ pendingNotListed (init emails) = true ∧
    freshAdds (init emails)
      [.add (generateEmail {} (fakerOf "2")), .remove "1", .add (generateEmail {} (fakerOf "3")),
        .undoRemoveEmail] = true ∧
    (ids (dispatchAll (init emails)
      [.add (generateEmail {} (fakerOf "2")), .remove "1", .add (generateEmail {} (fakerOf "3")),
        .undoRemoveEmail]).emails).Nodup :=
  ⟨by decide, by decide, by decide,
    ids_stay_distinct (init emails)
      [.add (generateEmail {} (fakerOf "2")), .remove "1", .add (generateEmail {} (fakerOf "3")),
        .undoRemoveEmail] (by decide) (by decide) (by decide)⟩

/-- C3, as stated, fails: four ticks, a removal, a fifth tick and an undo lead
from the mounted provider to six records, although every tick tested the
current `emails.length`; and a tick that fires after an undo, before the effect
of that render has run, adds a sixth record too. -/
theorem undo_exceeds_capacity :
    freshTicks mount overfill = true ∧
    (run overfill).state.emails.length = 6 ∧ ¬ (run overfill).state.emails.length ≤ 5 ∧
    (run overfillStale).state.emails.length = 6 := by
  decide

/-- C3, amended: in every state reachable from the mounted provider by ticks,
removals, undos and effect runs, where a tick adds a record only when the
`emails` its callback closed over has fewer than five records,
`emails.length <= 7`, and `<= 6` whenever a removal is pending. Along every
interleaving in which each tick fires after the effect of the latest render
has run, so that it tests the current `emails.length`, `emails.length <= 6`;
it is `<= 5` whenever a removal is pending, and `<= 5` when the interleaving
contains no undo. -/
theorem capacity_bound (events : List Event) :
    (run events).state.emails.length ≤ 7 ∧
    ((run events).state.removedEmailInfo ≠ none → (run events).state.emails.length ≤ 6) ∧
    (freshTicks mount events = true →
      (run events).state.emails.length ≤ 6 ∧
      ((run events).state.removedEmailInfo ≠ none → (run events).state.emails.length ≤ 5) ∧
      ((∀ e ∈ events, e ≠ Event.undo) → (run events).state.emails.length ≤ 5)) := by
  have hstale : StaleWithinCapacity mount :=
    ⟨by decide, fun _ => by decide, by decide⟩
  have hs := staleWithinCapacity_foldl events mount hstale
  refine ⟨hs.1, hs.2.1, fun hf => ?_⟩
  have hinit : WithinCapacity mount.state := ⟨by decide, fun _ => by decide⟩
  have h := withinCapacity_foldl events mount hinit hf
  exact ⟨h.1, h.2, atMostFive_foldl events mount (by decide) hf⟩

theorem capacity_bound_witness :
    freshTicks mount tickThenRemove = true ∧
    (run tickThenRemove).state.removedEmailInfo ≠ none ∧
    (∀ e ∈ tickThenRemove, e ≠ Event.undo) ∧
    (run tickThenRemove).state.emails.length ≤ 5 ∧
    (run tickThenRemove).state.emails.length ≤ 6 :=
  ⟨by decide, by decide, by decide,
    ((capacity_bound tickThenRemove).2.2 (by decide)).2.2 (by decide),
    (capacity_bound tickThenRemove).2.1 (by decide)⟩

/-- C4: `remove` with an id that matches no record returns the same `emails`
and the same `removedEmailInfo`, and emits exactly one warning. -/
theorem remove_unknown_is_logged_noop (s : State) (id : String) (h : id ∉ ids s.emails) :
    (emailsReducer s (.remove id)).1.emails = s.emails ∧
    (emailsReducer s (.remove id)).1.removedEmailInfo = s.removedEmailInfo ∧
    (emailsReducer s (.remove id)).2 = ["Cannot find email to remove."] ∧
    (emailsReducer s (.remove id)).2.length = 1 := by
  simp [emailsReducer, removeEmail_not_found s id h]

theorem remove_unknown_is_logged_noop_witness :
    "9" ∉ ids pendingAtEnd.emails ∧
    (emailsReducer pendingAtEnd (.remove "9")).1.emails = pendingAtEnd.emails ∧
    (emailsReducer pendingAtEnd (.remove "9")).1.removedEmailInfo
      = pendingAtEnd.removedEmailInfo ∧
    (emailsReducer pendingAtEnd (.remove "9")).2 = ["Cannot find email to remove."] ∧
    (emailsReducer pendingAtEnd (.remove "9")).2.length = 1 :=
  ⟨by decide, remove_unknown_is_logged_noop pendingAtEnd "9" (by decide)⟩

/-- C5: `undoRemoveEmail` is idempotent on the state, and with a null
`removedEmailInfo` it returns the state unchanged. -/
theorem undo_idempotent (s : State) :
    (undoRemoveEmail (undoRemoveEmail s).1).1 = (undoRemoveEmail s).1 ∧
    (s.removedEmailInfo = none → (undoRemoveEmail s).1 = s) := by
  cases hs : s.removedEmailInfo with
  | none => simp [undoRemoveEmail, hs]
  | some info => simp [undoRemoveEmail, hs]

theorem undo_idempotent_witness :
    (init emails).removedEmailInfo = none ∧ (undoRemoveEmail (init emails)).1 = init emails :=
  ⟨rfl, (undo_idempotent (init emails)).2 rfl⟩

/-- C6, as stated, fails: when two records carry the removed id, `remove`
deletes both, so the result is not the original sequence with only the record
at the first matching index deleted, and the length drops by two. -/
theorem remove_deletes_every_match :
    "1" ∈ ids twoSameId.emails ∧
    findIndex (fun email => email.id == "1") twoSameId.emails = 0 ∧
    (emailsReducer twoSameId (.remove "1")).1.emails = [] ∧
    (emailsReducer twoSameId (.remove "1")).1.emails ≠ twoSameId.emails.eraseIdx 0 ∧
    (emailsReducer twoSameId (.remove "1")).1.emails.length + 1 ≠ twoSameId.emails.length := by
  decide

/-- C6, amended: when exactly one record of `state.emails` carries the id, with
`i` the index of that record (no record before it matches), `remove` returns
the original sequence with the record at index `i` deleted, one shorter, and
`removedEmailInfo = {email: that record, index: i}` whatever was pending
before, without a warning. -/
theorem remove_postcondition (s : State) (id : String)
    (h : (ids s.emails).count id = 1) :
    ∃ (i : Nat) (r : EmailRecord),
      s.emails[i]? = some r ∧ r.id = id ∧
      (∀ j e, j < i → s.emails[j]? = some e → e.id ≠ id) ∧
      findIndex (fun email => email.id == id) s.emails = (i : Int) ∧
      (emailsReducer s (.remove id)).1.emails = s.emails.eraseIdx i ∧
      (emailsReducer s (.remove id)).1.emails.length + 1 = s.emails.length ∧
      (emailsReducer s (.remove id)).1.removedEmailInfo = some { email := r, index := (i : Int) } ∧
      (emailsReducer s (.remove id)).2 = [] := by
  obtain ⟨pre, x, post, hxs, hpre, hx, -, hrem⟩ := removeEmail_unique s id h
  have hneg : ¬ findIndex (fun email : EmailRecord => email.id == id) s.emails < 0 := by
    rw [findIndex_neg_iff]
    intro hall
    have := hall x (by simp [hxs])
    simp [hx] at this
  refine ⟨pre.length, x, ?_, hx, ?_, ?_, ?_, ?_, ?_, ?_⟩
  · rw [hxs, List.getElem?_append_right (le_refl _)]
    simp
  · intro j e hj he
    rw [hxs, List.getElem?_append_left hj] at he
    exact hpre e (List.getElem?_mem he)
  · have hrem2 := hrem
    unfold removeEmail at hrem2
    simp only [hneg, dif_neg, not_false_eq_true, Prod.mk.injEq, State.mk.injEq,
      Option.some.injEq, RemovedEmailInfo.mk.injEq] at hrem2
    exact hrem2.1.2.2
  · simp only [emailsReducer, hrem, hxs]
    rw [List.eraseIdx_append_of_length_le (le_refl _)]
    simp
  · simp only [emailsReducer, hrem, hxs]
    simp
    omega
  · simp only [emailsReducer, hrem]
  · simp only [emailsReducer, hrem]

theorem remove_postcondition_witness :
    (ids (init emails).emails).count "1" = 1 ∧
    ∃ (i : Nat) (r : EmailRecord),
      (init emails).emails[i]? = some r ∧ r.id = "1" ∧
      (∀ j e, j < i → (init emails).emails[j]? = some e → e.id ≠ "1") ∧
      findIndex (fun email => email.id == "1") (init emails).emails = (i : Int) ∧
      (emailsReducer (init emails) (.remove "1")).1.emails = (init emails).emails.eraseIdx i ∧
      (emailsReducer (init emails) (.remove "1")).1.emails.length + 1
        = (init emails).emails.length ∧
      (emailsReducer (init emails) (.remove "1")).1.removedEmailInfo
        = some { email := r, index := (i : Int) } ∧
      (emailsReducer (init emails) (.remove "1")).2 = [] :=
  ⟨by decide, remove_postcondition (init emails) "1" (by decide)⟩

/-- C7: with a pending removal `{email: r, index: i}` where `i <= emails.length`,
`undoRemoveEmail` returns a list one longer, with `r` at position `i`, the
records before `i` in place, the records from `i` on each moved right by one,
and a null `removedEmailInfo`. -/
theorem undo_postcondition (s : State) (r : EmailRecord) (i : Nat)
    (hp : s.removedEmailInfo = some { email := r, index := (i : Int) })
    (hi : i ≤ s.emails.length) :
    (emailsReducer s .undoRemoveEmail).1.emails.length = s.emails.length + 1 ∧
    (emailsReducer s .undoRemoveEmail).1.emails[i]? = some r ∧
    (∀ j, j < i → (emailsReducer s .undoRemoveEmail).1.emails[j]? = s.emails[j]?) ∧
    (∀ j, i ≤ j → (emailsReducer s .undoRemoveEmail).1.emails[j + 1]? = s.emails[j]?) ∧
    (emailsReducer s .undoRemoveEmail).1.removedEmailInfo = none := by
  have hem : (emailsReducer s .undoRemoveEmail).1.emails
      = s.emails.take i ++ r :: s.emails.drop i := by
    simp only [emailsReducer, undoRemoveEmail, hp, spliceInsert, spliceStart_of_le _ _ hi]
  refine ⟨?_, ?_, ?_, ?_, ?_⟩
  · simp only [emailsReducer, undoRemoveEmail, hp, length_spliceInsert]
  · rw [hem]; exact getElem?_insert_at _ _ _ hi
  · intro j hj; rw [hem]; exact getElem?_insert_before _ _ _ _ hi hj
  · intro j hj; rw [hem]; exact getElem?_insert_after _ _ _ _ hi hj
  · simp only [emailsReducer, undoRemoveEmail, hp]

theorem undo_postcondition_witness :
    pendingAtEnd.removedEmailInfo = some { email := sameIdAsSeed, index := ((1 : Nat) : Int) } ∧
    1 ≤ pendingAtEnd.emails.length ∧
    (emailsReducer pendingAtEnd .undoRemoveEmail).1.emails.length
      = pendingAtEnd.emails.length + 1 ∧
    (emailsReducer pendingAtEnd .undoRemoveEmail).1.emails[1]? = some sameIdAsSeed :=
  ⟨rfl, by decide,
    (undo_postcondition pendingAtEnd sameIdAsSeed 1 rfl (by decide)).1,
    (undo_postcondition pendingAtEnd sameIdAsSeed 1 rfl (by decide)).2.1⟩

/-- C8: `add` returns the original `emails` followed by the payload, with the
`removedEmailInfo` of the input state, and emits no warning. -/
theorem add_appends_keeps_undo_slot (s : State) (r : EmailRecord) :
    emailsReducer s (.add r) =
      ({ emails := s.emails ++ [r], removedEmailInfo := s.removedEmailInfo }, []) := by
  rfl

/-- C9, as stated, fails: an `id` override that is the empty string is not
kept, the record gets the generated identifier. -/
theorem generateEmail_drops_empty_override :
    ({ id := some "" } : Overrides).id = some "" ∧
    (generateEmail { id := some "" } (fakerOf "u")).id = "u" ∧
    (generateEmail { id := some "" } (fakerOf "u")).id ≠ "" := by
  decide

/-- C9, amended: a field supplied in `overrides` with a non-empty string is
kept as supplied; a field that is absent, or supplied as the empty string,
receives the generated value. -/
theorem generateEmail_keeps_nonempty_overrides (o : Overrides) (faker : Faker) :
    (∀ v, o.id = some v → v ≠ "" → (generateEmail o faker).id = v) ∧
    (∀ v, o.name = some v → v ≠ "" → (generateEmail o faker).name = v) ∧
    (∀ v, o.title = some v → v ≠ "" → (generateEmail o faker).title = v) ∧
    (∀ v, o.body = some v → v ≠ "" → (generateEmail o faker).body = v) ∧
    (∀ v, o.email = some v → v ≠ "" → (generateEmail o faker).email = v) ∧
    (o.id = none ∨ o.id = some "" → (generateEmail o faker).id = faker.uuid) ∧
    (o.name = none ∨ o.name = some "" →
      (generateEmail o faker).name = faker.firstName ++ " " ++ faker.lastName) ∧
    (o.title = none ∨ o.title = some "" → (generateEmail o faker).title = faker.sentence) ∧
    (o.body = none ∨ o.body = some "" → (generateEmail o faker).body = faker.paragraph) ∧
    (o.email = none ∨ o.email = some "" →
      (generateEmail o faker).email = faker.internetEmail) := by
  have keep : ∀ (a : Option String) (b v : String), a = some v → v ≠ "" → orElse a b = v := by
    intro a b v ha hv
    simp [orElse, ha, hv]
  have fill : ∀ (a : Option String) (b : String), a = none ∨ a = some "" → orElse a b = b := by
    intro a b ha
    rcases ha with ha | ha <;> simp [orElse, ha]
  exact ⟨keep _ _, keep _ _, keep _ _, keep _ _, keep _ _,
    fill _ _, fill _ _, fill _ _, fill _ _, fill _ _⟩

theorem generateEmail_keeps_nonempty_overrides_witness :
    (generateEmail { id := some "7", title := some "" } (fakerOf "u")).id = "7" ∧
    (generateEmail { id := some "7", title := some "" } (fakerOf "u")).title = "u" :=
  ⟨(generateEmail_keeps_nonempty_overrides { id := some "7", title := some "" }
      (fakerOf "u")).1 "7" rfl (by decide),
   (generateEmail_keeps_nonempty_overrides { id := some "7", title := some "" }
      (fakerOf "u")).2.2.2.2.2.2.2.1 (Or.inr rfl)⟩

/-- C10: in every state reachable from `init(emails)` through `emailsReducer`,
a pending `removedEmailInfo.index` satisfies `0 <= index <= emails.length`, so
`splice` inserts at exactly that index: the `actualStart` is the index itself
and the undone list is the records before it, the record, then the rest. -/
theorem undo_index_in_range (es : List EmailRecord) (acts : List Action)
    (info : RemovedEmailInfo)
    (h : (dispatchAll (init es) acts).removedEmailInfo = some info) :
    0 ≤ info.index ∧ info.index ≤ ((dispatchAll (init es) acts).emails.length : Int) ∧
    (spliceStart (dispatchAll (init es) acts).emails.length info.index : Int) = info.index ∧
    (undoRemoveEmail (dispatchAll (init es) acts)).1.emails =
      (dispatchAll (init es) acts).emails.take info.index.toNat ++
        info.email :: (dispatchAll (init es) acts).emails.drop info.index.toNat := by
  have hinit : IndexInRange (init es) := by
    intro i hi
    simp [init] at hi
  obtain ⟨h0, hle⟩ := indexInRange_dispatchAll acts (init es) hinit info h
  have hstart : spliceStart (dispatchAll (init es) acts).emails.length info.index
      = info.index.toNat := by
    have := spliceStart_of_le (dispatchAll (init es) acts).emails.length info.index.toNat
      (by omega)
    rwa [Int.toNat_of_nonneg h0] at this
  refine ⟨h0, hle, ?_, ?_⟩
  · rw [hstart]; exact Int.toNat_of_nonneg h0
  · simp only [undoRemoveEmail, h, spliceInsert, hstart]

theorem undo_index_in_range_witness :
    (dispatchAll (init emails) [.add sameIdAsSeed, .remove "1", .add sameIdAsSeed]).removedEmailInfo
      = some { email := emails.get ⟨0, by decide⟩, index := 0 } ∧
    (0 : Int) ≤ 0 ∧
    (0 : Int) ≤ ((dispatchAll (init emails)
      [.add sameIdAsSeed, .remove "1", .add sameIdAsSeed]).emails.length : Int) :=
  ⟨by decide, by decide,
    (undo_index_in_range emails [.add sameIdAsSeed, .remove "1", .add sameIdAsSeed]
      { email := emails.get ⟨0, by decide⟩, index := 0 } (by decide)).2.1⟩

/-- C11, as stated, fails: after the only record is removed a removal is
pending, yet `Inbox` returns `<Empty />`, with no `Undo` element; and with a
pending index past the end of the list the `Undo` element sits at the end
(position 1), not at the recorded index (5). -/
theorem inbox_empty_hides_undo :
    (emailsReducer (init emails) (.remove "1")).1.removedEmailInfo ≠ none ∧
    Inbox true (emailsReducer (init emails) (.remove "1")).1 = .empty ∧
    pendingPastEnd.removedEmailInfo = some { email := sameIdAsSeed, index := 5 } ∧
    Inbox true pendingPastEnd
      = .inbox [.emailError "1" (emails.get ⟨0, by decide⟩), .undo "undo-1"] := by
  decide

/-- C11, amended: for every store state with a pending removal whose index
lies in `0 .. emails.length`, a non-empty `emails` and `isAuthenticated` true,
`Inbox` renders a list that contains exactly one `Undo` element, at position
`removedEmailInfo.index`, and that is the email preview elements in order once
that element is taken out. -/
theorem inbox_offers_undo (s : State) (info : RemovedEmailInfo)
    (hp : s.removedEmailInfo = some info) (hne : s.emails ≠ [])
    (h0 : 0 ≤ info.index) (hle : info.index ≤ (s.emails.length : Int)) :
    ∃ els, Inbox true s = .inbox els ∧
      (els.filter Element.isUndo).length = 1 ∧
      els[info.index.toNat]? = some (.undo ("undo-" ++ info.email.id)) ∧
      els.eraseIdx info.index.toNat
        = s.emails.map (fun email => Element.emailError email.id email) ∧
      els.length = s.emails.length + 1 := by
  have hlen : ¬ s.emails.length = 0 := fun h => hne (List.length_eq_zero.mp h)
  have hi : info.index.toNat ≤ (s.emails.map
      (fun email => Element.emailError email.id email)).length := by
    rw [List.length_map]; omega
  have hstart : spliceStart (s.emails.map
      (fun email => Element.emailError email.id email)).length info.index
      = info.index.toNat := by
    have := spliceStart_of_le _ info.index.toNat hi
    rwa [Int.toNat_of_nonneg h0] at this
  have hnone : (s.emails.map (fun email => Element.emailError email.id email)).filter
      Element.isUndo = [] := by
    rw [List.filter_eq_nil_iff]
    intro e he
    obtain ⟨x, -, rfl⟩ := List.mem_map.mp he
    simp [Element.isUndo]
  refine ⟨spliceInsert (s.emails.map (fun email => Element.emailError email.id email))
    info.index (.undo ("undo-" ++ info.email.id)), ?_, ?_, ?_, ?_, ?_⟩
  · simp only [Inbox, hlen, hp, Bool.not_true, Bool.false_eq_true, if_false]
  · rw [((spliceInsert_perm _ info.index _).filter Element.isUndo).length_eq]
    simp [List.filter_cons, Element.isUndo, hnone]
  · unfold spliceInsert
    rw [hstart]
    exact getElem?_insert_at _ _ _ hi
  · unfold spliceInsert
    rw [hstart]
    exact eraseIdx_insert_at _ _ _ hi
  · rw [length_spliceInsert, List.length_map]

theorem inbox_offers_undo_witness :
    pendingAtEnd.removedEmailInfo = some { email := sameIdAsSeed, index := 1 } ∧
    pendingAtEnd.emails ≠ [] ∧
    Inbox true pendingAtEnd
      = .inbox [.emailError "1" (emails.get ⟨0, by decide⟩), .undo "undo-1"] ∧
    ∃ els, Inbox true pendingAtEnd = .inbox els ∧
      (els.filter Element.isUndo).length = 1 ∧
      els[(1 : Int).toNat]? = some (.undo ("undo-" ++ sameIdAsSeed.id)) ∧
      els.eraseIdx (1 : Int).toNat
        = pendingAtEnd.emails.map (fun email => Element.emailError email.id email) ∧
      els.length = pendingAtEnd.emails.length + 1 :=
  ⟨rfl, by decide, by decide,
    inbox_offers_undo pendingAtEnd { email := sameIdAsSeed, index := 1 } rfl (by decide)
      (by decide) (by decide)⟩

end EmailStore
